import Mathlib

/-!
Verification development for the PMarc (-pm2-) decoder of the lhasa
repository (lib/lha_pma_decoder.c in the sources given).

The C code is shallowly embedded below.  Machine integers are modelled as
Nat with explicit truncation (% 256 for uint8 stores, wrap at zero for
the size_t countdown decrement) at exactly the points where the C
performs a narrowing store or can wrap.  The decoder's bit source is modelled as a list of booleans
(most significant bit first); the file bit_stream_reader.c is not among
the given sources, so the reader is modelled from the spec (see
read_bits below).
-/

/-- Modelled from the spec: bit_stream_reader.c is not among the given
source files.  Per spec section 4.1 the reader serves bits most
significant bit first; a value assembled from the next `n` bits.
This folds the bit list into the corresponding Nat. -/
def bitsToNat (bs : List Bool) : Nat :=
  bs.foldl (fun acc b => 2 * acc + (if b then 1 else 0)) 0

/-- Modelled from the spec: `read_bits(n)` returns the next `n` bits as an
unsigned integer, most significant bit first, consuming them; on
exhaustion of the source before `n` bits are available the call fails
(`InsufficientInput`, here `none`) and consumes nothing. -/
def read_bits (bits : List Bool) (n : Nat) : Option (Nat × List Bool) :=
  if n ≤ bits.length then some (bitsToNat (bits.take n), bits.drop n) else none

/-- PMARebuildState from the C source: position in the adaptive rebuild
schedule. -/
inductive PMARebuildState where
  | unbuilt      -- At start of stream
  | build1       -- After 1KiB
  | build2       -- After 2KiB
  | build3       -- After 4KiB
  | continuing   -- 8KiB onwards...
  deriving DecidableEq

/-- LHAPMADecoder: the per-session decoder state.  `bits` stands for the
embedded BitStreamReader (see read_bits).  Trees are byte arrays; a cell
value with bit 7 set (TREE_NODE_LEAF = 0x80) is a leaf. -/
structure LHAPMADecoder where
  bits : List Bool
  tree_state : PMARebuildState
  tree_rebuild_remaining : Nat
  ringbuf : List Nat
  ringbuf_pos : Nat
  code_tree : List Nat
  need_offset_tree : Bool
  offset_tree : List Nat

/-- TreeBuildData from the C source.  The C circular queue
(`entries[32]` with `next_entry`/`entries_len`) is represented as a FIFO
list with the same observable operations: add at the back (dropped when
32 entries are already queued), read from the front (0 when empty). -/
structure TreeBuildData where
  tree : List Nat
  tree_len : Nat
  tree_allocated : Nat
  entries : List Nat

/-- add_queue_entry: add an entry to the tree entry queue; silently
dropped when the queue already holds 32 entries. -/
def add_queue_entry (build : TreeBuildData) (index : Nat) : TreeBuildData :=
  if 32 ≤ build.entries.length then build
  else { build with entries := build.entries ++ [index] }

/-- read_queue_entry: read an entry from the tree entry queue;
returns 0 when the queue is empty. -/
def read_queue_entry (build : TreeBuildData) : Nat × TreeBuildData :=
  match build.entries with
  | [] => (0, build)
  | e :: rest => (e, { build with entries := rest })

/-- Loop body of expand_queue (run when the capacity check passes):
allocate a fresh node, store its (uint8-truncated) index into the slot
read from the queue, and queue the node's two child slots. -/
def expand_queue_step (build : TreeBuildData) : TreeBuildData :=
  let node := build.tree_allocated
  let b1 := { build with tree_allocated := build.tree_allocated + 2 }
  let p := read_queue_entry b1
  let b2 := { p.2 with tree := p.2.tree.set p.1 (node % 256) }
  let b3 := add_queue_entry b2 (node % 256)
  add_queue_entry b3 ((node + 1) % 256)

/-- The loop of expand_queue, iterated `n` times (the C loop runs
`num_nodes = entries_len` times and returns early once
`tree_allocated >= tree_len`). -/
def expand_queue_go (build : TreeBuildData) : Nat → TreeBuildData
  | 0 => build
  | n + 1 =>
    if build.tree_len ≤ build.tree_allocated then build
    else expand_queue_go (expand_queue_step build) n

/-- expand_queue from the C source. -/
def expand_queue (build : TreeBuildData) : TreeBuildData :=
  expand_queue_go build build.entries.length

/-- The leaf store of add_codes_with_length: the next queue slot becomes
the leaf of symbol `i` (uint8 store of `i | TREE_NODE_LEAF`). -/
def add_codes_leaf (build : TreeBuildData) (i : Nat) : TreeBuildData :=
  let p := read_queue_entry build
  { p.2 with tree := p.2.tree.set p.1 ((i ||| 128) % 256) }

/-- Loop of add_codes_with_length: index `i` walks the code_lengths
table (`n` entries left); a symbol whose length equals `code_len` takes
the next queue slot as its leaf; a longer length records that more
passes are needed. -/
def add_codes_go (code_lengths : List Nat) (code_len : Nat) :
    Nat → Nat → TreeBuildData → Bool → TreeBuildData × Bool
  | 0, _, build, rem => (build, rem)
  | n + 1, i, build, rem =>
    let li := code_lengths.getD i 0
    if li = code_len then
      add_codes_go code_lengths code_len n (i + 1) (add_codes_leaf build i) rem
    else if code_len < li then
      add_codes_go code_lengths code_len n (i + 1) build true
    else
      add_codes_go code_lengths code_len n (i + 1) build rem

/-- add_codes_with_length from the C source. -/
def add_codes_with_length (build : TreeBuildData) (code_lengths : List Nat)
    (num_code_lengths code_len : Nat) : TreeBuildData × Bool :=
  add_codes_go code_lengths code_len num_code_lengths 0 build false

/-- The do/while loop of build_tree.  The C loop stops when no code
length exceeds the current `code_len`; since lengths are uint8 values
(< 256) at every call site, 256 iterations always suffice, which the
fuel argument makes structural. -/
def build_tree_go (code_lengths : List Nat) (num_code_lengths : Nat) :
    Nat → Nat → TreeBuildData → TreeBuildData
  | 0, _, build => build
  | fuel + 1, code_len, build =>
    let b1 := expand_queue build
    let r := add_codes_with_length b1 code_lengths num_code_lengths (code_len + 1)
    if r.2 then build_tree_go code_lengths num_code_lengths fuel (code_len + 1) r.1
    else r.1

/-- build_tree from the C source, with the full final construction state
exposed.  Starts with the root pointer (cell 0) as the single queue
entry and tree_allocated = 1. -/
def build_tree_full (tree : List Nat) (tree_len : Nat) (code_lengths : List Nat)
    (num_code_lengths : Nat) : TreeBuildData :=
  build_tree_go code_lengths num_code_lengths 256 0
    { tree := tree, tree_len := tree_len, tree_allocated := 1, entries := [0] }

/-- build_tree from the C source: the resulting tree array (the C
function mutates the array in place and returns nothing else). -/
def build_tree (tree : List Nat) (tree_len : Nat) (code_lengths : List Nat)
    (num_code_lengths : Nat) : List Nat :=
  (build_tree_full tree tree_len code_lengths num_code_lengths).tree

/-- The code-length-table loop of read_code_tree: reads
`n` entries of `length_bits` bits each; entry value 0 means unused,
otherwise the length is `min_code_length + val - 1`.  Returns the
(possibly failed) table together with the bit-source state actually
consumed so far.  (The uint8 store needs no truncation:
`min_code_length ≤ 7` and `val < 2^7`, so the value is below 256.) -/
def read_length_entries (min_code_length length_bits : Nat) :
    Nat → List Bool → Option (List Nat) × List Bool
  | 0, bits => (some [], bits)
  | n + 1, bits =>
    match read_bits bits length_bits with
    | none => (none, bits)
    | some (val, bits1) =>
      let entry := if val = 0 then 0 else min_code_length + val - 1
      match read_length_entries min_code_length length_bits n bits1 with
      | (none, bits2) => (none, bits2)
      | (some rest, bits2) => (some (entry :: rest), bits2)

/-- read_code_tree from the C source.  The returned Bool is the C int
result (1 success / 0 failure).  Note the need_offset_tree flag is
stored right after the two header reads, before any further reading. -/
def read_code_tree (d : LHAPMADecoder) : Bool × LHAPMADecoder :=
  match read_bits d.bits 5 with
  | none => (false, d)
  | some (num_codes, bits1) =>
    match read_bits bits1 3 with
    | none => (false, { d with bits := bits1 })
    | some (min_code_length, bits2) =>
      let d1 : LHAPMADecoder :=
        { d with
          bits := bits2,
          need_offset_tree :=
            decide (10 ≤ num_codes ∧ ¬(num_codes = 29 ∧ min_code_length = 0)) }
      if min_code_length = 0 then
        -- Minimum length of zero means a tree containing a single code.
        -- (The C computes TREE_NODE_LEAF | (num_codes - 1) in int
        -- arithmetic and stores the low byte; for num_codes = 0 the int
        -- is -1 and the stored byte is 255.)
        (true, { d1 with code_tree :=
          d1.code_tree.set 0 (if num_codes = 0 then 255 else 128 ||| (num_codes - 1)) })
      else
        match read_bits bits2 3 with
        | none => (false, d1)
        | some (length_bits, bits3) =>
          match read_length_entries min_code_length length_bits num_codes bits3 with
          | (none, bits4) => (false, { d1 with bits := bits4 })
          | (some code_lengths, bits4) =>
            (true, { d1 with
                     bits := bits4,
                     code_tree := build_tree d1.code_tree 65 code_lengths num_codes })

/-- The offset-length loop of read_offset_tree: `n` raw 3-bit entries. -/
def read_offset_lengths : Nat → List Bool → Option (List Nat) × List Bool
  | 0, bits => (some [], bits)
  | n + 1, bits =>
    match read_bits bits 3 with
    | none => (none, bits)
    | some (len, bits1) =>
      match read_offset_lengths n bits1 with
      | (none, bits2) => (none, bits2)
      | (some rest, bits2) => (some (len :: rest), bits2)

/-- The C loop tracks `single_offset` as the most recent offset with a
nonzero length; this recovers that value from the finished table. -/
def lastNonzeroIndex (lens : List Nat) : Nat :=
  (List.range lens.length).foldl
    (fun acc off => if lens.getD off 0 ≠ 0 then off else acc) 0

/-- read_offset_tree from the C source.  When exactly one offset code is
present the root cell is set to that single leaf directly; otherwise the
general builder runs over the 17-cell offset tree. -/
def read_offset_tree (d : LHAPMADecoder) (num_offsets : Nat) : Bool × LHAPMADecoder :=
  match read_offset_lengths num_offsets d.bits with
  | (none, bits1) => (false, { d with bits := bits1 })
  | (some offset_lengths, bits1) =>
    let num_codes := (offset_lengths.filter (fun l => decide (l ≠ 0))).length
    if num_codes = 1 then
      (true, { d with
               bits := bits1,
               offset_tree :=
                 d.offset_tree.set 0 (lastNonzeroIndex offset_lengths ||| 128) })
    else
      (true, { d with
               bits := bits1,
               offset_tree := build_tree d.offset_tree 17 offset_lengths num_offsets })

/-- rebuild_tree from the C source: the state-scheduled rebuild of the
lookup trees.  Return values of the embedded readers are ignored, as in
the C.  A failed flag-bit read (no bits left) leaves the source
unchanged and skips the code-tree re-read, as `read_bit(...) == 1` is
false for the -1 error value. -/
def rebuild_tree (d : LHAPMADecoder) : LHAPMADecoder :=
  match d.tree_state with
  | .unbuilt =>
    let d1 := (read_code_tree d).2
    let d2 := (read_offset_tree d1 5).2
    { d2 with tree_state := .build1, tree_rebuild_remaining := 1024 }
  | .build1 =>
    let d1 := (read_offset_tree d 6).2
    { d1 with tree_state := .build2, tree_rebuild_remaining := 1024 }
  | .build2 =>
    let d1 := (read_offset_tree d 7).2
    { d1 with tree_state := .build3, tree_rebuild_remaining := 2048 }
  | .build3 =>
    let d1 := match read_bits d.bits 1 with
      | some (v, rest) =>
        if v = 1 then (read_code_tree { d with bits := rest }).2
        else { d with bits := rest }
      | none => d
    let d2 := (read_offset_tree d1 8).2
    { d2 with tree_state := .continuing, tree_rebuild_remaining := 4096 }
  | .continuing =>
    let d1 := match read_bits d.bits 1 with
      | some (v, rest) =>
        if v = 1 then
          (read_offset_tree (read_code_tree { d with bits := rest }).2 8).2
        else { d with bits := rest }
      | none => d
    { d1 with tree_rebuild_remaining := 4096 }

/-- Result of a tree traversal.  `insufficientInput` is the C -1 return
(bit read failed).  `outOfFuel` marks the cut-off of the fuelled
embedding of the C while loop; it is proved unreachable for every tree
this decoder builds (claim C10). -/
inductive TreeReadResult where
  | ok (sym : Nat) (rest : List Bool)
  | insufficientInput
  | outOfFuel
  deriving DecidableEq

/-- The while loop of read_from_tree: while the current value has no
leaf bit, read one bit (inlined read_bit on the bit list) and load
`tree[code + bit]`.  Returns the leaf value with bit 7 masked off. -/
def read_from_tree_go (tree : List Nat) : Nat → Nat → List Bool → TreeReadResult
  | 0, code, bits =>
    if code &&& 128 ≠ 0 then .ok (code &&& 127) bits
    else match bits with
      | [] => .insufficientInput
      | _ :: _ => .outOfFuel
  | fuel + 1, code, bits =>
    if code &&& 128 ≠ 0 then .ok (code &&& 127) bits
    else match bits with
      | [] => .insufficientInput
      | b :: rest =>
        read_from_tree_go tree fuel (tree.getD (code + (if b then 1 else 0)) 0) rest

/-- read_from_tree from the C source.  The C loop has no fuel; the bound
`tree.length + 1` is sufficient for every tree the decoder holds, since
cell values written by build_tree strictly increase along a traversal
(claim C10). -/
def read_from_tree (tree : List Nat) (bits : List Bool) : TreeReadResult :=
  read_from_tree_go tree (tree.length + 1) 0 bits

/-- output_byte from the C source: store the byte in the history ring
buffer at the write cursor, advance the cursor mod 8192, append the
byte to the caller's output buffer, then decrement the size_t rebuild
countdown (with 64-bit wraparound) and rebuild the trees when it
reaches zero. -/
def output_byte (d : LHAPMADecoder) (buf : List Nat) (b : Nat) :
    LHAPMADecoder × List Nat :=
  let d1 := { d with
              ringbuf := d.ringbuf.set d.ringbuf_pos (b % 256),
              ringbuf_pos := (d.ringbuf_pos + 1) % 8192 }
  let buf1 := buf ++ [b % 256]
  -- size_t decrement: --x wraps to SIZE_MAX = 2^64 - 1 when x is 0
  -- (equal to (x + 2^64 - 1) % 2^64 for x < 2^64)
  let d2 := { d1 with tree_rebuild_remaining :=
                if d1.tree_rebuild_remaining = 0 then 18446744073709551615
                else d1.tree_rebuild_remaining - 1 }
  if d2.tree_rebuild_remaining = 0 then (rebuild_tree d2, buf1) else (d2, buf1)

/-- lha_pma_decoder_init from the C source.  It operates on
caller-provided storage (`pre`), installs the bit source, resets the
schedule, fills the ring buffer with spaces (0x20) and both trees with
leaf sentinels (0x80).  `ringbuf_pos` is not assigned by the C function
and is therefore left as in `pre`.  The returned Bool is the
unconditional `return 1`. -/
def lha_pma_decoder_init (pre : LHAPMADecoder) (bits : List Bool) :
    Bool × LHAPMADecoder :=
  (true,
    { pre with
      bits := bits,
      tree_state := .unbuilt,
      tree_rebuild_remaining := 0,
      ringbuf := List.replicate 8192 32,
      code_tree := List.replicate 65 128,
      offset_tree := List.replicate 17 128 })

/-- The body of lha_pma_decoder_read after the lazy first rebuild: reads
one symbol from the code tree; a failed read returns 0 bytes.  In the
given source the decoded symbol is then discarded (the literal/copy
handling is left as a TODO) and `result`, still 0, is returned, so no
byte is ever written to `buf`. -/
def pma_read_decode (d : LHAPMADecoder) (buf : List Nat) :
    Nat × List Nat × LHAPMADecoder :=
  match read_from_tree d.code_tree d.bits with
  | .ok _code rest => (0, buf, { d with bits := rest })
  | .insufficientInput => (0, buf, { d with bits := [] })
  | .outOfFuel => (0, buf, { d with bits := [] })

/-- lha_pma_decoder_read from the C source: on the first pass through
(state still unbuilt) the initial lookup trees are built, then one
symbol is decoded. -/
def lha_pma_decoder_read (d : LHAPMADecoder) (buf : List Nat) :
    Nat × List Nat × LHAPMADecoder :=
  pma_read_decode (if d.tree_state = .unbuilt then rebuild_tree d else d) buf

/-- Repeated byte emission through output_byte (the per-output-byte path
of the decoder); used to state countdown/ring-buffer behaviour over a
whole emitted byte sequence. -/
def emitBytes (d : LHAPMADecoder) (bs : List Nat) : LHAPMADecoder :=
  bs.foldl (fun d b => (output_byte d [] b).1) d

/-- A concrete session object standing for the caller-allocated decoder
storage handed to lha_pma_decoder_init (contents immaterial; used to
instantiate theorems). -/
def emptyDecoder : LHAPMADecoder :=
  { bits := [], tree_state := .unbuilt, tree_rebuild_remaining := 0,
    ringbuf := List.replicate 8192 32, ringbuf_pos := 0,
    code_tree := List.replicate 65 128, need_offset_tree := false,
    offset_tree := List.replicate 17 128 }

/-- The structural invariant of the first `len` cells of a tree array:
every cell holds a byte, and a cell without the leaf bit holds a child
pointer that is strictly larger than the cell's own index and fits (with
its sibling) inside the first `len` cells. -/
def TreeInvAt (tree : List Nat) (len : Nat) : Prop :=
  ∀ i, i < len → tree.getD i 0 < 256 ∧
    (tree.getD i 0 &&& 128 = 0 → i < tree.getD i 0 ∧ tree.getD i 0 + 1 < len)

instance (tree : List Nat) (len : Nat) : Decidable (TreeInvAt tree len) := by
  unfold TreeInvAt; exact inferInstance

/-- Invariant carried through tree construction: the capacity is an odd
byte count that fits in the array, the allocation counter is odd and
within capacity, every queued slot index is below the allocation
counter, and the array satisfies TreeInvAt. -/
def BuildInv (b : TreeBuildData) : Prop :=
  Odd b.tree_len ∧ b.tree_len ≤ 255 ∧ b.tree_len ≤ b.tree.length ∧
  Odd b.tree_allocated ∧ b.tree_allocated ≤ b.tree_len ∧
  (∀ e ∈ b.entries, e < b.tree_allocated) ∧
  TreeInvAt b.tree b.tree_len

/-- The rebuild schedule's successor state (the projection of
rebuild_tree onto tree_state, proved to agree with it below). -/
def schedNext : PMARebuildState → PMARebuildState
  | .unbuilt => .build1
  | .build1 => .build2
  | .build2 => .build3
  | .build3 => .continuing
  | .continuing => .continuing

/-- The countdown installed by a rebuild fired from a given state (the
projection of rebuild_tree onto tree_rebuild_remaining). -/
def schedCountdown : PMARebuildState → Nat
  | .unbuilt => 1024
  | .build1 => 1024
  | .build2 => 2048
  | .build3 => 4096
  | .continuing => 4096

/-- One output byte, projected onto (tree_state, countdown): the size_t
decrement with 64-bit wraparound, then a rebuild when zero is reached. -/
def tickPair (p : PMARebuildState × Nat) : PMARebuildState × Nat :=
  let r := if p.2 = 0 then 18446744073709551615 else p.2 - 1
  if r = 0 then (schedNext p.1, schedCountdown p.1) else (p.1, r)

/-- `n` output bytes, projected onto (tree_state, countdown). -/
def tickN (n : Nat) (p : PMARebuildState × Nat) : PMARebuildState × Nat :=
  tickPair^[n] p

/-- A concrete stream for the unfinished-read evidence: 5-bit
num_codes = 9, 3-bit min_code_length = 0 (degenerate single-symbol code
tree for symbol 8, needing no offset tree), the five 3-bit zero entries
of the initial offset table, then one data bit. -/
def c2_stream : List Bool :=
  [false, true, false, false, true] ++ [false, false, false] ++
    List.replicate 15 false ++ [false]

/-- A concrete decoder whose pending input encodes the 3-bit offset
length table 0,0,1,0,0 (a single code for offset 2) followed by a
single data bit 1. -/
def c4_decoder : LHAPMADecoder :=
  { emptyDecoder with
    bits := [false, false, false, false, false, false, false, false, true,
             false, false, false, false, false, false, true] }

/-- A concrete decoder whose pending input starts with the 5-bit count
10 and the 3-bit minimum length 0. -/
def c6_decoder : LHAPMADecoder :=
  { emptyDecoder with
    bits := [false, true, false, true, false, false, false, false] }

/-! ### List index helpers -/

theorem getD_set_self (l : List Nat) (i v : Nat) (h : i < l.length) :
    (l.set i v).getD i 0 = v := by
  induction l generalizing i with
  | nil => simp at h
  | cons a l ih =>
    cases i with
    | zero => simp
    | succ n => simpa using ih n (by simpa using h)

theorem getD_set_ne (l : List Nat) (i j v : Nat) (h : i ≠ j) :
    (l.set i v).getD j 0 = l.getD j 0 := by
  induction l generalizing i j with
  | nil => simp
  | cons a l ih =>
    cases i with
    | zero =>
      cases j with
      | zero => exact absurd rfl h
      | succ m => simp
    | succ n =>
      cases j with
      | zero => simp
      | succ m => simpa using ih n m (by omega)

theorem getD_append_lt (l l' : List Nat) (i : Nat) (h : i < l.length) :
    (l ++ l').getD i 0 = l.getD i 0 := by
  induction l generalizing i with
  | nil => simp at h
  | cons a l ih =>
    cases i with
    | zero => simp
    | succ n => simpa using ih n (by simpa using h)

theorem getD_replicate (n v i : Nat) (h : i < n) :
    (List.replicate n v).getD i 0 = v := by
  induction n generalizing i with
  | zero => omega
  | succ m ih =>
    cases i with
    | zero => simp [List.replicate]
    | succ k =>
      have := ih k (by omega)
      simpa [List.replicate] using this

/-- The uint8 store of `i | 0x80` always carries the leaf bit. -/
theorem lor128_leafbit (i : Nat) : ((i ||| 128) % 256) &&& 128 ≠ 0 := by
  have h7 : ((i ||| 128) % 256).testBit 7 = true := by
    have h256 : (256 : Nat) = 2 ^ 8 := rfl
    rw [h256, Nat.testBit_mod_two_pow, Nat.testBit_lor]
    have h128bit : Nat.testBit 128 7 = true := by decide
    simp [h128bit]
  have h := Nat.and_two_pow ((i ||| 128) % 256) 7
  rw [h7] at h
  rw [show (2 : Nat) ^ 7 = 128 from rfl] at h
  simp at h
  omega

/-! ### Queue operations -/

theorem read_queue_entry_spec (b : TreeBuildData) :
    (read_queue_entry b).2.tree = b.tree ∧
    (read_queue_entry b).2.tree_len = b.tree_len ∧
    (read_queue_entry b).2.tree_allocated = b.tree_allocated ∧
    ((read_queue_entry b).1 = 0 ∨ (read_queue_entry b).1 ∈ b.entries) ∧
    (∀ e ∈ (read_queue_entry b).2.entries, e ∈ b.entries) := by
  obtain ⟨t, tl, ta, es⟩ := b
  cases es with
  | nil => simp [read_queue_entry]
  | cons e rest =>
    refine ⟨rfl, rfl, rfl, Or.inr ?_, ?_⟩
    · simp [read_queue_entry]
    · intro x hx
      simp only [read_queue_entry] at hx
      simp [hx]

theorem add_queue_entry_spec (b : TreeBuildData) (x : Nat) :
    (add_queue_entry b x).tree = b.tree ∧
    (add_queue_entry b x).tree_len = b.tree_len ∧
    (add_queue_entry b x).tree_allocated = b.tree_allocated ∧
    (∀ e ∈ (add_queue_entry b x).entries, e ∈ b.entries ∨ e = x) := by
  unfold add_queue_entry
  split
  · exact ⟨rfl, rfl, rfl, fun e he => Or.inl he⟩
  · refine ⟨rfl, rfl, rfl, ?_⟩
    intro e he
    simpa using he

theorem add_queue_entry_inv (b : TreeBuildData) (x : Nat) (hb : BuildInv b)
    (hx : x < b.tree_allocated) :
    BuildInv (add_queue_entry b x) ∧
    (add_queue_entry b x).tree = b.tree ∧
    (add_queue_entry b x).tree_len = b.tree_len ∧
    (add_queue_entry b x).tree_allocated = b.tree_allocated := by
  obtain ⟨h1, h2, h3, h4, h5, h6, h7⟩ := hb
  obtain ⟨ht, htl, hta, hmem⟩ := add_queue_entry_spec b x
  refine ⟨⟨?_, ?_, ?_, ?_, ?_, ?_, ?_⟩, ht, htl, hta⟩
  · rwa [htl]
  · rwa [htl]
  · rw [htl, ht]; exact h3
  · rwa [hta]
  · rwa [hta, htl]
  · intro e he
    rw [hta]
    rcases hmem e he with h | h
    · exact h6 e h
    · omega
  · rw [ht, htl]; exact h7

theorem expand_queue_step_spec (b : TreeBuildData) (hb : BuildInv b)
    (hlt : b.tree_allocated < b.tree_len) :
    BuildInv (expand_queue_step b) ∧
    (expand_queue_step b).tree_len = b.tree_len ∧
    (expand_queue_step b).tree.length = b.tree.length ∧
    (∀ i, b.tree_len ≤ i →
      (expand_queue_step b).tree.getD i 0 = b.tree.getD i 0) := by
  obtain ⟨hoL, h255, hLl, hoA, hAL, hq, hinv⟩ := hb
  obtain ⟨k1, hk1⟩ := hoL
  obtain ⟨k2, hk2⟩ := hoA
  have hstep : b.tree_allocated + 2 ≤ b.tree_len := by omega
  have hm1 : b.tree_allocated % 256 = b.tree_allocated := Nat.mod_eq_of_lt (by omega)
  have hm2 : (b.tree_allocated + 1) % 256 = b.tree_allocated + 1 :=
    Nat.mod_eq_of_lt (by omega)
  obtain ⟨hqt0, hqtl0, hqta0, hqv0, hqmem0⟩ :=
    read_queue_entry_spec { b with tree_allocated := b.tree_allocated + 2 }
  -- the same facts with the record-update projections reduced
  have hqt : (read_queue_entry
      { b with tree_allocated := b.tree_allocated + 2 }).2.tree = b.tree := hqt0
  have hqtl : (read_queue_entry
      { b with tree_allocated := b.tree_allocated + 2 }).2.tree_len = b.tree_len := hqtl0
  have hqta : (read_queue_entry
      { b with tree_allocated := b.tree_allocated + 2 }).2.tree_allocated =
      b.tree_allocated + 2 := hqta0
  have hqv : (read_queue_entry
      { b with tree_allocated := b.tree_allocated + 2 }).1 = 0 ∨
      (read_queue_entry
        { b with tree_allocated := b.tree_allocated + 2 }).1 ∈ b.entries := hqv0
  have hqmem : ∀ e ∈ (read_queue_entry
      { b with tree_allocated := b.tree_allocated + 2 }).2.entries,
      e ∈ b.entries := hqmem0
  have hshape : expand_queue_step b =
      add_queue_entry
        (add_queue_entry
          { (read_queue_entry { b with tree_allocated := b.tree_allocated + 2 }).2 with
            tree :=
              (read_queue_entry
                { b with tree_allocated := b.tree_allocated + 2 }).2.tree.set
                (read_queue_entry { b with tree_allocated := b.tree_allocated + 2 }).1
                (b.tree_allocated % 256) }
          (b.tree_allocated % 256))
        ((b.tree_allocated + 1) % 256) := rfl
  have hqv' : (read_queue_entry { b with tree_allocated := b.tree_allocated + 2 }).1 <
      b.tree_allocated := by
    rcases hqv with h | h
    · omega
    · exact hq _ h
  -- BuildInv of the state after the tree store
  have hb2 : BuildInv
      { (read_queue_entry { b with tree_allocated := b.tree_allocated + 2 }).2 with
        tree :=
          (read_queue_entry
            { b with tree_allocated := b.tree_allocated + 2 }).2.tree.set
            (read_queue_entry { b with tree_allocated := b.tree_allocated + 2 }).1
            (b.tree_allocated % 256) } := by
    refine ⟨?_, ?_, ?_, ?_, ?_, ?_, ?_⟩
    · show Odd (read_queue_entry _).2.tree_len
      rw [hqtl]; exact ⟨k1, hk1⟩
    · show (read_queue_entry _).2.tree_len ≤ 255
      rw [hqtl]; exact h255
    · show (read_queue_entry _).2.tree_len ≤ (List.set _ _ _).length
      rw [List.length_set, hqtl, hqt]; exact hLl
    · show Odd (read_queue_entry _).2.tree_allocated
      rw [hqta]; exact ⟨k2 + 1, by omega⟩
    · show (read_queue_entry _).2.tree_allocated ≤ (read_queue_entry _).2.tree_len
      rw [hqta, hqtl]; exact hstep
    · intro e he
      show e < (read_queue_entry _).2.tree_allocated
      rw [hqta]
      have := hq e (hqmem e he)
      omega
    · show TreeInvAt _ (read_queue_entry _).2.tree_len
      rw [hqtl, hqt, hm1]
      intro i hi
      by_cases hie :
          i = (read_queue_entry { b with tree_allocated := b.tree_allocated + 2 }).1
      · subst hie
        rw [getD_set_self _ _ _ (by omega)]
        exact ⟨by omega, fun _ => ⟨hqv', by omega⟩⟩
      · rw [getD_set_ne _ _ _ _ (fun h => hie h.symm)]
        exact hinv i hi
  -- push through the two queue adds
  obtain ⟨hA1, hA1t0, hA1tl0, hA1ta0⟩ :=
    add_queue_entry_inv _ (b.tree_allocated % 256) hb2
      (by
        show b.tree_allocated % 256 < (read_queue_entry _).2.tree_allocated
        rw [hqta, hm1]; omega)
  obtain ⟨hA2, hA2t, hA2tl, hA2ta⟩ :=
    add_queue_entry_inv _ ((b.tree_allocated + 1) % 256) hA1
      (by
        rw [hA1ta0]
        show (b.tree_allocated + 1) % 256 < (read_queue_entry _).2.tree_allocated
        rw [hqta, hm2]; omega)
  rw [hshape]
  refine ⟨hA2, ?_, ?_, ?_⟩
  · rw [hA2tl, hA1tl0]
    show (read_queue_entry _).2.tree_len = b.tree_len
    rw [hqtl]
  · rw [hA2t, hA1t0]
    show (List.set _ _ _).length = b.tree.length
    rw [List.length_set, hqt]
  · intro i hi
    rw [hA2t, hA1t0]
    show (List.set _ _ _).getD i 0 = b.tree.getD i 0
    rw [hqt, getD_set_ne _ _ _ _ (by omega)]

theorem expand_queue_go_spec (n : Nat) (b : TreeBuildData) (hb : BuildInv b) :
    BuildInv (expand_queue_go b n) ∧
    (expand_queue_go b n).tree_len = b.tree_len ∧
    (expand_queue_go b n).tree.length = b.tree.length ∧
    (∀ i, b.tree_len ≤ i →
      (expand_queue_go b n).tree.getD i 0 = b.tree.getD i 0) := by
  induction n generalizing b with
  | zero => exact ⟨hb, rfl, rfl, fun i _ => rfl⟩
  | succ n ih =>
    unfold expand_queue_go
    split
    · exact ⟨hb, rfl, rfl, fun i _ => rfl⟩
    · rename_i hlt
      obtain ⟨h1, h2, h3, h4⟩ := expand_queue_step_spec b hb (by omega)
      obtain ⟨g1, g2, g3, g4⟩ := ih _ h1
      refine ⟨g1, by rw [g2, h2], by rw [g3, h3], ?_⟩
      intro i hi
      rw [g4 i (by rw [h2]; omega), h4 i hi]

theorem expand_queue_spec (b : TreeBuildData) (hb : BuildInv b) :
    BuildInv (expand_queue b) ∧
    (expand_queue b).tree_len = b.tree_len ∧
    (expand_queue b).tree.length = b.tree.length ∧
    (∀ i, b.tree_len ≤ i → (expand_queue b).tree.getD i 0 = b.tree.getD i 0) :=
  expand_queue_go_spec _ b hb

theorem add_codes_leaf_spec (b : TreeBuildData) (i : Nat) (hb : BuildInv b) :
    BuildInv (add_codes_leaf b i) ∧
    (add_codes_leaf b i).tree_len = b.tree_len ∧
    (add_codes_leaf b i).tree.length = b.tree.length ∧
    (∀ j, b.tree_len ≤ j →
      (add_codes_leaf b i).tree.getD j 0 = b.tree.getD j 0) ∧
    (add_codes_leaf b i).tree_allocated = b.tree_allocated := by
  obtain ⟨hoL, h255, hLl, hoA, hAL, hq, hinv⟩ := hb
  obtain ⟨k2, hk2⟩ := hoA
  obtain ⟨hqt0, hqtl0, hqta0, hqv0, hqmem0⟩ := read_queue_entry_spec b
  have hq1 : (read_queue_entry b).1 < b.tree_allocated := by
    rcases hqv0 with h | h
    · omega
    · exact hq _ h
  have hshape : add_codes_leaf b i =
      { (read_queue_entry b).2 with
        tree := (read_queue_entry b).2.tree.set (read_queue_entry b).1
          ((i ||| 128) % 256) } := rfl
  rw [hshape]
  refine ⟨⟨?_, ?_, ?_, ?_, ?_, ?_, ?_⟩, ?_, ?_, ?_, ?_⟩
  · show Odd (read_queue_entry b).2.tree_len
    rw [hqtl0]; exact hoL
  · show (read_queue_entry b).2.tree_len ≤ 255
    rw [hqtl0]; exact h255
  · show (read_queue_entry b).2.tree_len ≤ (List.set _ _ _).length
    rw [List.length_set, hqtl0, hqt0]; exact hLl
  · show Odd (read_queue_entry b).2.tree_allocated
    rw [hqta0]; exact ⟨k2, hk2⟩
  · show (read_queue_entry b).2.tree_allocated ≤ (read_queue_entry b).2.tree_len
    rw [hqta0, hqtl0]; exact hAL
  · intro e he
    show e < (read_queue_entry b).2.tree_allocated
    rw [hqta0]
    exact hq e (hqmem0 e he)
  · show TreeInvAt _ (read_queue_entry b).2.tree_len
    rw [hqtl0, hqt0]
    intro j hj
    by_cases hje : j = (read_queue_entry b).1
    · subst hje
      rw [getD_set_self _ _ _ (by omega)]
      exact ⟨Nat.mod_lt _ (by norm_num),
        fun hand => absurd hand (lor128_leafbit i)⟩
    · rw [getD_set_ne _ _ _ _ (fun h => hje h.symm)]
      exact hinv j hj
  · show (read_queue_entry b).2.tree_len = b.tree_len
    exact hqtl0
  · show (List.set _ _ _).length = b.tree.length
    rw [List.length_set, hqt0]
  · intro j hj
    show (List.set _ _ _).getD j 0 = b.tree.getD j 0
    rw [hqt0, getD_set_ne _ _ _ _ (by omega)]
  · show (read_queue_entry b).2.tree_allocated = b.tree_allocated
    exact hqta0

theorem add_codes_go_spec (cl : List Nat) (c : Nat) (n : Nat) :
    ∀ i b rem, BuildInv b →
      BuildInv (add_codes_go cl c n i b rem).1 ∧
      (add_codes_go cl c n i b rem).1.tree_len = b.tree_len ∧
      (add_codes_go cl c n i b rem).1.tree.length = b.tree.length ∧
      (∀ j, b.tree_len ≤ j →
        (add_codes_go cl c n i b rem).1.tree.getD j 0 = b.tree.getD j 0) ∧
      (add_codes_go cl c n i b rem).1.tree_allocated = b.tree_allocated := by
  induction n with
  | zero => intro i b rem hb; exact ⟨hb, rfl, rfl, fun j _ => rfl, rfl⟩
  | succ n ih =>
    intro i b rem hb
    unfold add_codes_go
    dsimp only
    split
    · obtain ⟨h1, h2, h3, h4, h5⟩ := add_codes_leaf_spec b i hb
      obtain ⟨g1, g2, g3, g4, g5⟩ := ih (i + 1) _ rem h1
      exact ⟨g1, by rw [g2, h2], by rw [g3, h3],
        fun j hj => by rw [g4 j (by rw [h2]; exact hj), h4 j hj],
        by rw [g5, h5]⟩
    · split
      · exact ih (i + 1) b true hb
      · exact ih (i + 1) b rem hb

theorem add_codes_with_length_spec (b : TreeBuildData) (cl : List Nat)
    (num c : Nat) (hb : BuildInv b) :
    BuildInv (add_codes_with_length b cl num c).1 ∧
    (add_codes_with_length b cl num c).1.tree_len = b.tree_len ∧
    (add_codes_with_length b cl num c).1.tree.length = b.tree.length ∧
    (∀ j, b.tree_len ≤ j →
      (add_codes_with_length b cl num c).1.tree.getD j 0 = b.tree.getD j 0) ∧
    (add_codes_with_length b cl num c).1.tree_allocated = b.tree_allocated :=
  add_codes_go_spec cl c num 0 b false hb

theorem build_tree_go_spec (cl : List Nat) (num : Nat) (fuel : Nat) :
    ∀ c b, BuildInv b →
      BuildInv (build_tree_go cl num fuel c b) ∧
      (build_tree_go cl num fuel c b).tree_len = b.tree_len ∧
      (build_tree_go cl num fuel c b).tree.length = b.tree.length ∧
      (∀ j, b.tree_len ≤ j →
        (build_tree_go cl num fuel c b).tree.getD j 0 = b.tree.getD j 0) := by
  induction fuel with
  | zero => intro c b hb; exact ⟨hb, rfl, rfl, fun j _ => rfl⟩
  | succ fuel ih =>
    intro c b hb
    unfold build_tree_go
    obtain ⟨e1, e2, e3, e4⟩ := expand_queue_spec b hb
    obtain ⟨a1, a2, a3, a4, a5⟩ :=
      add_codes_with_length_spec (expand_queue b) cl num (c + 1) e1
    dsimp only
    split
    · obtain ⟨g1, g2, g3, g4⟩ := ih (c + 1) _ a1
      refine ⟨g1, by rw [g2, a2, e2], by rw [g3, a3, e3], ?_⟩
      intro j hj
      rw [g4 j (by rw [a2, e2]; exact hj), a4 j (by rw [e2]; exact hj), e4 j hj]
    · exact ⟨a1, by rw [a2, e2], by rw [a3, e3],
        fun j hj => by rw [a4 j (by rw [e2]; exact hj), e4 j hj]⟩

theorem build_tree_spec (t : List Nat) (len : Nat) (cl : List Nat) (num : Nat)
    (hodd : Odd len) (h255 : len ≤ 255) (hlen : len ≤ t.length)
    (hinv : TreeInvAt t len) :
    TreeInvAt (build_tree t len cl num) len ∧
    (build_tree t len cl num).length = t.length ∧
    (∀ i, len ≤ i → (build_tree t len cl num).getD i 0 = t.getD i 0) ∧
    (build_tree_full t len cl num).tree_allocated ≤ len := by
  have hodd' := hodd
  obtain ⟨k, hk⟩ := hodd'
  have hb0 : BuildInv
      { tree := t, tree_len := len, tree_allocated := 1, entries := [0] } := by
    refine ⟨hodd, h255, hlen, ⟨0, rfl⟩, ?_, ?_, hinv⟩
    · show 1 ≤ len
      omega
    · intro e he
      simp at he
      subst he
      show (0 : Nat) < 1
      norm_num
  obtain ⟨g1, g2, g3, g4⟩ := build_tree_go_spec cl num 256 0 _ hb0
  obtain ⟨-, -, -, -, gAL, -, gInv⟩ := g1
  refine ⟨?_, g3, g4, ?_⟩
  · rw [g2] at gInv
    exact gInv
  · rw [g2] at gAL
    exact gAL

/-! ### Tree traversal -/

theorem read_from_tree_go_empty (tree : List Nat) (fuel code : Nat)
    (h : code &&& 128 = 0) :
    read_from_tree_go tree fuel code [] = .insufficientInput := by
  cases fuel <;> simp [read_from_tree_go, h]

theorem read_from_tree_go_leaf (tree : List Nat) (fuel code : Nat)
    (bits : List Bool) (h : code &&& 128 ≠ 0) :
    read_from_tree_go tree fuel code bits = .ok (code &&& 127) bits := by
  cases fuel <;> simp [read_from_tree_go, h]

theorem read_from_tree_go_spec (tree : List Nat) (len : Nat)
    (hinv : TreeInvAt tree len) :
    ∀ fuel code bits, code &&& 128 = 0 → code + 1 < len → len ≤ fuel + code →
      read_from_tree_go tree fuel code bits ≠ .outOfFuel ∧
      (len ≤ bits.length + code →
        ∃ sym rest, read_from_tree_go tree fuel code bits = .ok sym rest ∧
          bits.length - rest.length + code ≤ len) := by
  intro fuel
  induction fuel with
  | zero =>
    intro code bits hc hcl hfl
    omega
  | succ fuel ih =>
    intro code bits hc hcl hfl
    cases bits with
    | nil =>
      rw [read_from_tree_go_empty tree _ code hc]
      refine ⟨by simp, ?_⟩
      intro habs
      simp at habs
      omega
    | cons b rest =>
      have hred : read_from_tree_go tree (fuel + 1) code (b :: rest) =
          read_from_tree_go tree fuel
            (tree.getD (code + (if b then 1 else 0)) 0) rest := by
        rw [read_from_tree_go, if_neg (not_not_intro hc)]
      have hidx : code + (if b then 1 else 0) < len := by
        split <;> omega
      obtain ⟨hlt256, hptr⟩ := hinv _ hidx
      by_cases hnl : tree.getD (code + (if b then 1 else 0)) 0 &&& 128 = 0
      · obtain ⟨hgt, hfit⟩ := hptr hnl
        obtain ⟨nofuel, hok⟩ := ih _ rest hnl hfit (by omega)
        rw [hred]
        refine ⟨nofuel, ?_⟩
        intro hbl
        simp only [List.length_cons] at hbl ⊢
        obtain ⟨sym, rest', heq, hbound⟩ := hok (by omega)
        exact ⟨sym, rest', heq, by omega⟩
      · rw [hred, read_from_tree_go_leaf tree _ _ rest hnl]
        refine ⟨by simp, ?_⟩
        intro _
        refine ⟨_, rest, rfl, ?_⟩
        simp only [List.length_cons]
        omega

theorem read_from_tree_go_frame (tree junk : List Nat) (len : Nat)
    (hinv : TreeInvAt tree len) (hlen : len ≤ tree.length) :
    ∀ fuel code bits, code &&& 128 ≠ 0 ∨ code + 1 < len →
      read_from_tree_go (tree ++ junk) fuel code bits =
        read_from_tree_go tree fuel code bits := by
  intro fuel
  induction fuel with
  | zero =>
    intro code bits _
    rfl
  | succ fuel ih =>
    intro code bits hcond
    rcases hcond with hleaf | hcl
    · rw [read_from_tree_go_leaf _ _ _ _ hleaf, read_from_tree_go_leaf _ _ _ _ hleaf]
    · by_cases hc : code &&& 128 = 0
      · cases bits with
        | nil =>
          rw [read_from_tree_go_empty _ _ _ hc, read_from_tree_go_empty _ _ _ hc]
        | cons b rest =>
          have hidx : code + (if b then 1 else 0) < len := by
            split <;> omega
          have hidx' : code + (if b then 1 else 0) < tree.length := by omega
          have hred1 : read_from_tree_go (tree ++ junk) (fuel + 1) code (b :: rest) =
              read_from_tree_go (tree ++ junk) fuel
                ((tree ++ junk).getD (code + (if b then 1 else 0)) 0) rest := by
            rw [read_from_tree_go, if_neg (not_not_intro hc)]
          have hred2 : read_from_tree_go tree (fuel + 1) code (b :: rest) =
              read_from_tree_go tree fuel
                (tree.getD (code + (if b then 1 else 0)) 0) rest := by
            rw [read_from_tree_go, if_neg (not_not_intro hc)]
          rw [hred1, hred2, getD_append_lt _ _ _ hidx']
          obtain ⟨-, hptr⟩ := hinv _ hidx
          by_cases hnl : tree.getD (code + (if b then 1 else 0)) 0 &&& 128 = 0
          · exact ih _ rest (Or.inr (hptr hnl).2)
          · exact ih _ rest (Or.inl hnl)
      · rw [read_from_tree_go_leaf _ _ _ _ hc, read_from_tree_go_leaf _ _ _ _ hc]

/-! ### Decoder field preservation -/

theorem read_code_tree_preserves (d : LHAPMADecoder) :
    (read_code_tree d).2.tree_state = d.tree_state ∧
    (read_code_tree d).2.tree_rebuild_remaining = d.tree_rebuild_remaining ∧
    (read_code_tree d).2.ringbuf = d.ringbuf ∧
    (read_code_tree d).2.ringbuf_pos = d.ringbuf_pos ∧
    (read_code_tree d).2.offset_tree = d.offset_tree := by
  unfold read_code_tree
  dsimp only
  repeat' split
  all_goals exact ⟨rfl, rfl, rfl, rfl, rfl⟩

theorem read_offset_tree_preserves (d : LHAPMADecoder) (n : Nat) :
    (read_offset_tree d n).2.tree_state = d.tree_state ∧
    (read_offset_tree d n).2.tree_rebuild_remaining = d.tree_rebuild_remaining ∧
    (read_offset_tree d n).2.ringbuf = d.ringbuf ∧
    (read_offset_tree d n).2.ringbuf_pos = d.ringbuf_pos ∧
    (read_offset_tree d n).2.need_offset_tree = d.need_offset_tree ∧
    (read_offset_tree d n).2.code_tree = d.code_tree := by
  unfold read_offset_tree
  dsimp only
  repeat' split
  all_goals exact ⟨rfl, rfl, rfl, rfl, rfl, rfl⟩

theorem rebuild_tree_preserves_ring (d : LHAPMADecoder) :
    (rebuild_tree d).ringbuf = d.ringbuf ∧
    (rebuild_tree d).ringbuf_pos = d.ringbuf_pos := by
  have hc := read_code_tree_preserves
  have ho := read_offset_tree_preserves
  unfold rebuild_tree
  repeat' split
  all_goals refine ⟨?_, ?_⟩
  all_goals first
    | rfl
    | exact ((ho _ _).2.2.1).trans ((hc _).2.2.1)
    | exact ((ho _ _).2.2.2.1).trans ((hc _).2.2.2.1)
    | exact (ho _ _).2.2.1
    | exact (ho _ _).2.2.2.1

theorem rebuild_tree_sched (d : LHAPMADecoder) :
    (rebuild_tree d).tree_state = schedNext d.tree_state ∧
    (rebuild_tree d).tree_rebuild_remaining = schedCountdown d.tree_state := by
  have hc := read_code_tree_preserves
  have ho := read_offset_tree_preserves
  unfold rebuild_tree
  split
  · rename_i hst; rw [hst]; exact ⟨rfl, rfl⟩
  · rename_i hst; rw [hst]; exact ⟨rfl, rfl⟩
  · rename_i hst; rw [hst]; exact ⟨rfl, rfl⟩
  · rename_i hst; rw [hst]; exact ⟨rfl, rfl⟩
  · rename_i hst
    rw [hst]
    refine ⟨?_, rfl⟩
    split
    · split
      · exact ((ho _ _).1).trans ((hc _).1)
      · rfl
    · exact hst

theorem rebuild_tree_flag_preserved (d : LHAPMADecoder)
    (h : d.tree_state = .build1 ∨ d.tree_state = .build2) :
    (rebuild_tree d).need_offset_tree = d.need_offset_tree := by
  rcases h with h | h
  · simp only [rebuild_tree, h]
    exact (read_offset_tree_preserves _ _).2.2.2.2.1
  · simp only [rebuild_tree, h]
    exact (read_offset_tree_preserves _ _).2.2.2.2.1

theorem output_byte_proj (d : LHAPMADecoder) (buf : List Nat) (b : Nat) :
    (output_byte d buf b).1.tree_state =
      (tickPair (d.tree_state, d.tree_rebuild_remaining)).1 ∧
    (output_byte d buf b).1.tree_rebuild_remaining =
      (tickPair (d.tree_state, d.tree_rebuild_remaining)).2 ∧
    (output_byte d buf b).1.ringbuf = d.ringbuf.set d.ringbuf_pos (b % 256) ∧
    (output_byte d buf b).1.ringbuf_pos = (d.ringbuf_pos + 1) % 8192 ∧
    (output_byte d buf b).2 = buf ++ [b % 256] := by
  unfold output_byte tickPair
  dsimp only
  split
  · -- countdown was 0: wraps to SIZE_MAX, never triggering a rebuild
    have h18 : (18446744073709551615 : Nat) ≠ 0 := by norm_num
    simp [h18]
  · split
    · exact ⟨(rebuild_tree_sched _).1, (rebuild_tree_sched _).2,
        (rebuild_tree_preserves_ring _).1, (rebuild_tree_preserves_ring _).2, rfl⟩
    · exact ⟨rfl, rfl, rfl, rfl, rfl⟩

theorem tickPair_step (s : PMARebuildState) (r : Nat) (h1 : 1 ≤ r) :
    tickPair (s, r) =
      if r = 1 then (schedNext s, schedCountdown s) else (s, r - 1) := by
  unfold tickPair
  dsimp only
  rw [if_neg (by omega : ¬r = 0)]
  by_cases h : r = 1
  · rw [if_pos (by omega : r - 1 = 0), if_pos h]
  · rw [if_neg (by omega : ¬r - 1 = 0), if_neg h]

theorem tickN_succ (n : Nat) (p : PMARebuildState × Nat) :
    tickN (n + 1) p = tickPair (tickN n p) :=
  Function.iterate_succ_apply' tickPair n p

theorem tickN_front (n : Nat) (p : PMARebuildState × Nat) :
    tickN (n + 1) p = tickN n (tickPair p) :=
  Function.iterate_succ_apply tickPair n p

theorem emitBytes_cons (d : LHAPMADecoder) (b : Nat) (bs : List Nat) :
    emitBytes d (b :: bs) = emitBytes (output_byte d [] b).1 bs := rfl

theorem emitBytes_tick (bs : List Nat) : ∀ d : LHAPMADecoder,
    ((emitBytes d bs).tree_state, (emitBytes d bs).tree_rebuild_remaining) =
      tickN bs.length (d.tree_state, d.tree_rebuild_remaining) := by
  induction bs with
  | nil => intro d; rfl
  | cons b bs ih =>
    intro d
    rw [emitBytes_cons, ih]
    obtain ⟨o1, o2, -, -, -⟩ := output_byte_proj d [] b
    rw [o1, o2]
    simp only [List.length_cons]
    rw [tickN_front]

theorem tickN_linear (k : Nat) : ∀ s r, k < r → tickN k (s, r) = (s, r - k) := by
  induction k with
  | zero => intro s r _; simp [tickN]
  | succ k ih =>
    intro s r h
    rw [tickN_front, tickPair_step _ _ (by omega), if_neg (by omega : ¬r = 1),
      ih s (r - 1) (by omega)]
    congr 1
    omega

theorem tickN_fire (s : PMARebuildState) (r : Nat) (h : 1 ≤ r) :
    tickN r (s, r) = (schedNext s, schedCountdown s) := by
  obtain ⟨k, rfl⟩ : ∃ k, r = k + 1 := ⟨r - 1, by omega⟩
  rw [tickN_succ, tickN_linear k s (k + 1) (by omega),
    tickPair_step _ _ (by omega), if_pos (by omega : k + 1 - k = 1)]

theorem tickN_add (a b : Nat) (p : PMARebuildState × Nat) :
    tickN (a + b) p = tickN b (tickN a p) := by
  induction b with
  | zero => rfl
  | succ b ih => rw [← Nat.add_assoc, tickN_succ, tickN_succ, ih]

theorem tickN_steady (m : Nat) :
    tickN m (PMARebuildState.continuing, 4096) =
      (PMARebuildState.continuing, 4096 - m % 4096) := by
  induction m with
  | zero => simp [tickN]
  | succ m ih =>
    rw [tickN_succ, ih, tickPair_step _ _ (by omega)]
    by_cases h : m % 4096 = 4095
    · rw [if_pos (by omega)]
      have h0 : (m + 1) % 4096 = 0 := by omega
      rw [h0]
      rfl
    · rw [if_neg (by omega)]
      congr 1
      omega

theorem tickN_traj (n : Nat) :
    (n < 1024 → tickN n (PMARebuildState.build1, 1024) =
      (PMARebuildState.build1, 1024 - n)) ∧
    (1024 ≤ n → n < 2048 → tickN n (PMARebuildState.build1, 1024) =
      (PMARebuildState.build2, 2048 - n)) ∧
    (2048 ≤ n → n < 4096 → tickN n (PMARebuildState.build1, 1024) =
      (PMARebuildState.build3, 4096 - n)) ∧
    (4096 ≤ n → n < 8192 → tickN n (PMARebuildState.build1, 1024) =
      (PMARebuildState.continuing, 8192 - n)) ∧
    (8192 ≤ n → tickN n (PMARebuildState.build1, 1024) =
      (PMARebuildState.continuing, 4096 - (n - 8192) % 4096)) := by
  have h1024 : tickN 1024 (PMARebuildState.build1, 1024) =
      (PMARebuildState.build2, 1024) := tickN_fire _ _ (by norm_num)
  have h2048 : tickN 2048 (PMARebuildState.build1, 1024) =
      (PMARebuildState.build3, 2048) := by
    have h := tickN_add 1024 1024 (PMARebuildState.build1, 1024)
    norm_num at h
    rw [h, h1024, tickN_fire _ _ (by norm_num)]
    rfl
  have h4096 : tickN 4096 (PMARebuildState.build1, 1024) =
      (PMARebuildState.continuing, 4096) := by
    have h := tickN_add 2048 2048 (PMARebuildState.build1, 1024)
    norm_num at h
    rw [h, h2048, tickN_fire _ _ (by norm_num)]
    rfl
  have h8192 : tickN 8192 (PMARebuildState.build1, 1024) =
      (PMARebuildState.continuing, 4096) := by
    have h := tickN_add 4096 4096 (PMARebuildState.build1, 1024)
    norm_num at h
    rw [h, h4096, tickN_fire _ _ (by norm_num)]
    rfl
  refine ⟨?_, ?_, ?_, ?_, ?_⟩
  · intro h
    exact tickN_linear n _ _ h
  · intro hge hlt
    have hn : n = 1024 + (n - 1024) := by omega
    rw [hn, tickN_add, h1024, tickN_linear _ _ _ (by omega)]
    simp only [Prod.mk.injEq]
    exact ⟨trivial, by omega⟩
  · intro hge hlt
    have hn : n = 2048 + (n - 2048) := by omega
    rw [hn, tickN_add, h2048, tickN_linear _ _ _ (by omega)]
    simp only [Prod.mk.injEq]
    exact ⟨trivial, by omega⟩
  · intro hge hlt
    have hn : n = 4096 + (n - 4096) := by omega
    rw [hn, tickN_add, h4096, tickN_linear _ _ _ (by omega)]
    simp only [Prod.mk.injEq]
    exact ⟨trivial, by omega⟩
  · intro hge
    have hn : n = 8192 + (n - 8192) := by omega
    rw [hn, tickN_add, h8192, tickN_steady]
    simp only [Prod.mk.injEq]
    exact ⟨trivial, by omega⟩

theorem emitBytes_ring (bs : List Nat) : ∀ d : LHAPMADecoder, d.ringbuf_pos < 8192 →
    (emitBytes d bs).ringbuf_pos = (d.ringbuf_pos + bs.length) % 8192 ∧
    (emitBytes d bs).ringbuf.length = d.ringbuf.length ∧
    (∀ i, (∀ k, k < bs.length → i ≠ (d.ringbuf_pos + k) % 8192) →
      (emitBytes d bs).ringbuf.getD i 0 = d.ringbuf.getD i 0) := by
  induction bs with
  | nil =>
    intro d hpos
    refine ⟨?_, rfl, fun i _ => rfl⟩
    rw [List.length_nil, Nat.add_zero, Nat.mod_eq_of_lt hpos]
    rfl
  | cons b bs ih =>
    intro d hpos
    obtain ⟨-, -, o3, o4, -⟩ := output_byte_proj d [] b
    have hpos' : (output_byte d [] b).1.ringbuf_pos < 8192 := by
      rw [o4]; exact Nat.mod_lt _ (by norm_num)
    obtain ⟨g1, g2, g3⟩ := ih (output_byte d [] b).1 hpos'
    rw [emitBytes_cons]
    refine ⟨?_, ?_, ?_⟩
    · rw [g1, o4, Nat.mod_add_mod, List.length_cons]
      congr 1
      omega
    · rw [g2, o3, List.length_set]
    · intro i hne
      have hne0 : d.ringbuf_pos ≠ i := by
        have h0 := hne 0 (by simp)
        rw [Nat.add_zero, Nat.mod_eq_of_lt hpos] at h0
        exact fun h => h0 h.symm
      have hprem : ∀ k, k < bs.length →
          i ≠ ((output_byte d [] b).1.ringbuf_pos + k) % 8192 := by
        intro k hk
        rw [o4, Nat.mod_add_mod]
        have hh := hne (k + 1) (by simp only [List.length_cons]; omega)
        intro hcontra
        apply hh
        rw [show d.ringbuf_pos + (k + 1) = d.ringbuf_pos + 1 + k from by omega]
        exact hcontra
      rw [g3 i hprem, o3, getD_set_ne _ _ _ _ hne0]

/-! ### Claims -/

/-- Claim C8: session initialization always succeeds (it returns 1
unconditionally) and consumes no bits (the installed bit source is the
given one, untouched); it leaves the schedule in the unbuilt state, and
the initial tree build is instead triggered lazily by the first call to
the read operation, before any symbol is decoded; a rebuild never
leaves the state unbuilt, so the build happens only on that first
call. -/
theorem c8_lazy_init :
    (∀ pre : LHAPMADecoder, ∀ bits : List Bool,
      (lha_pma_decoder_init pre bits).1 = true ∧
      (lha_pma_decoder_init pre bits).2.bits = bits ∧
      (lha_pma_decoder_init pre bits).2.tree_state = PMARebuildState.unbuilt) ∧
    (∀ d : LHAPMADecoder, ∀ buf : List Nat,
      d.tree_state = PMARebuildState.unbuilt →
      lha_pma_decoder_read d buf = pma_read_decode (rebuild_tree d) buf) ∧
    (∀ d : LHAPMADecoder, ∀ buf : List Nat,
      d.tree_state ≠ PMARebuildState.unbuilt →
      lha_pma_decoder_read d buf = pma_read_decode d buf) ∧
    (∀ d : LHAPMADecoder, (rebuild_tree d).tree_state ≠ PMARebuildState.unbuilt) := by
  refine ⟨fun pre bits => ⟨rfl, rfl, rfl⟩, ?_, ?_, ?_⟩
  · intro d buf h
    unfold lha_pma_decoder_read
    rw [if_pos h]
  · intro d buf h
    unfold lha_pma_decoder_read
    rw [if_neg h]
  · intro d
    rw [(rebuild_tree_sched d).1]
    cases h : d.tree_state <;> simp [schedNext]

theorem c8_lazy_init_witness :
    lha_pma_decoder_read emptyDecoder [] =
      pma_read_decode (rebuild_tree emptyDecoder) [] ∧
    (lha_pma_decoder_init emptyDecoder [true]).1 = true :=
  ⟨c8_lazy_init.2.1 emptyDecoder [] rfl, (c8_lazy_init.1 emptyDecoder [true]).1⟩

/-- Claim C7: a failed bit read during read_from_tree's traversal (no
bits left at a non-leaf node) makes the traversal fail at once with the
same InsufficientInput condition, without retrying; and a read call
whose symbol decode fails this way returns 0 bytes written with the
caller's buffer untouched (indeed every read call of this unfinished
source returns 0 bytes). -/
theorem c7_insufficient_input :
    (∀ tree : List Nat, ∀ fuel code : Nat, code &&& 128 = 0 →
      read_from_tree_go tree fuel code [] = TreeReadResult.insufficientInput) ∧
    (∀ d : LHAPMADecoder, ∀ buf : List Nat,
      read_from_tree d.code_tree d.bits = TreeReadResult.insufficientInput →
      pma_read_decode d buf = (0, buf, { d with bits := [] })) ∧
    (∀ d : LHAPMADecoder, ∀ buf : List Nat,
      (lha_pma_decoder_read d buf).1 = 0 ∧ (lha_pma_decoder_read d buf).2.1 = buf) := by
  refine ⟨read_from_tree_go_empty, ?_, ?_⟩
  · intro d buf h
    unfold pma_read_decode
    rw [h]
  · intro d buf
    unfold lha_pma_decoder_read pma_read_decode
    constructor <;> (split <;> rfl)

theorem c7_insufficient_input_witness :
    read_from_tree_go [1, 128, 129] 3 0 [] = TreeReadResult.insufficientInput ∧
    pma_read_decode emptyDecoder [] = (0, [], { emptyDecoder with bits := [] }) :=
  ⟨c7_insufficient_input.1 [1, 128, 129] 3 0 (by decide),
   c7_insufficient_input.2.1 emptyDecoder [] (by decide)⟩

/-- Claim C6: when the code tree is read, read_code_tree stores the
need-offset-tree flag — immediately after the 5-bit symbol count and
3-bit minimum code length are read, before anything else — and the flag
is false exactly when the count is below 10, or the count is exactly 29
with minimum length 0; reading an offset table never changes it, nor do
the offset-only rebuilds (states build1 and build2), so the flag only
changes at code-tree read time. -/
theorem c6_need_offset_tree :
    (∀ d : LHAPMADecoder, ∀ num bits1 min bits2,
      read_bits d.bits 5 = some (num, bits1) →
      read_bits bits1 3 = some (min, bits2) →
      ((read_code_tree d).2.need_offset_tree = true ↔
        (10 ≤ num ∧ ¬(num = 29 ∧ min = 0)))) ∧
    (∀ d : LHAPMADecoder, ∀ n : Nat,
      (read_offset_tree d n).2.need_offset_tree = d.need_offset_tree) ∧
    (∀ d : LHAPMADecoder,
      d.tree_state = PMARebuildState.build1 ∨ d.tree_state = PMARebuildState.build2 →
      (rebuild_tree d).need_offset_tree = d.need_offset_tree) := by
  refine ⟨?_, fun d n => (read_offset_tree_preserves d n).2.2.2.2.1,
    rebuild_tree_flag_preserved⟩
  intro d num bits1 min bits2 h5 h3
  unfold read_code_tree
  rw [h5]
  dsimp only
  rw [h3]
  dsimp only
  repeat' split
  all_goals simp
  all_goals tauto

theorem c6_need_offset_tree_witness :
    (read_code_tree c6_decoder).2.need_offset_tree = true ↔
      (10 ≤ 10 ∧ ¬(10 = 29 ∧ 0 = 0)) :=
  c6_need_offset_tree.1 c6_decoder 10 [false, false, false] 0 []
    (by decide) (by decide)

/-- Claim C1 (code-bug evidence): for the two-symbol table [1,1] the
builder stores the root pointer 1 in cell 0 and the two leaves in cells
1 and 2, but read_from_tree starts its walk at code = 0 rather than at
tree[0], so the canonical bit sequence 0,1,0 decodes to the
higher-indexed symbol (consuming two bits) and then fails with
InsufficientInput, instead of decoding lower, higher, lower with one
bit each; a lone bit 1 decodes to the lower-indexed symbol. -/
theorem c1_canonical_roundtrip_broken :
    build_tree (List.replicate 65 128) 65 [1, 1] 2 =
      [1, 128, 129] ++ List.replicate 62 128 ∧
    read_from_tree (build_tree (List.replicate 65 128) 65 [1, 1] 2)
      [false, true, false] = TreeReadResult.ok 1 [false] ∧
    read_from_tree (build_tree (List.replicate 65 128) 65 [1, 1] 2)
      [false] = TreeReadResult.insufficientInput ∧
    read_from_tree (build_tree (List.replicate 65 128) 65 [1, 1] 2)
      [true] = TreeReadResult.ok 0 [] := by
  decide

/-- Claim C4 (code-bug evidence): read_offset_tree with the single-code
table 0,0,1,0,0 sets the root cell of the offset tree directly to the
leaf of offset 2 (value 0x82 = 130), as the claim states; but decoding
from that tree consumes one bit rather than zero, and with input bit 1
it returns symbol 0 instead of 2, because the traversal starts at
code = 0 and never inspects the root leaf first; with input bit 0 it
returns the right symbol but still consumes the bit. -/
theorem c4_degenerate_consumes_a_bit :
    (read_offset_tree c4_decoder 5).1 = true ∧
    (read_offset_tree c4_decoder 5).2.offset_tree.getD 0 0 = 130 ∧
    (read_offset_tree c4_decoder 5).2.bits = [true] ∧
    read_from_tree (read_offset_tree c4_decoder 5).2.offset_tree [true] =
      TreeReadResult.ok 0 [] ∧
    read_from_tree (read_offset_tree c4_decoder 5).2.offset_tree [false] =
      TreeReadResult.ok 2 [] := by
  decide

/-- Claim C2 (code-bug evidence): on a well-formed stream declaring a
degenerate single-symbol code tree (num_codes = 9, min_code_length = 0,
so the decoder itself records that no offset tree is needed) followed
by data, the lazy initial rebuild succeeds — the code tree's root holds
the leaf of symbol 8 — and read_from_tree on the remaining input
decodes that literal symbol; yet lha_pma_decoder_read returns 0 bytes
written and leaves the output buffer empty: the read function decodes a
symbol and discards it (the literal/copy emission is an unfinished TODO
in the source, and output_byte is never reached). -/
theorem c2_read_emits_nothing :
    (lha_pma_decoder_read (lha_pma_decoder_init emptyDecoder c2_stream).2 []).1 = 0 ∧
    (lha_pma_decoder_read (lha_pma_decoder_init emptyDecoder c2_stream).2 []).2.1 = [] ∧
    (rebuild_tree (lha_pma_decoder_init emptyDecoder c2_stream).2).code_tree.getD 0 0
      = 136 ∧
    (rebuild_tree (lha_pma_decoder_init emptyDecoder c2_stream).2).need_offset_tree
      = false ∧
    read_from_tree
      (rebuild_tree (lha_pma_decoder_init emptyDecoder c2_stream).2).code_tree
      (rebuild_tree (lha_pma_decoder_init emptyDecoder c2_stream).2).bits =
        TreeReadResult.ok 8 [] := by
  decide

/-- Claim C5 counterexample: the one-symbol table [7] demands a
level-order tree of 255 cells, beyond the 65-cell capacity; build_tree
nevertheless completes and returns an ordinary tree with no failure
indication of any kind, its allocation counter stopped at the 65-cell
cap, and the symbol of specified depth 7 is reachable after only 6
bits — silent truncation, not a reported TreeCapacityExceeded
failure. -/
theorem c5_counterexample_silent_truncation :
    (build_tree_full (List.replicate 65 128) 65 [7] 1).tree_allocated = 65 ∧
    read_from_tree (build_tree (List.replicate 65 128) 65 [7] 1)
      [false, false, false, false, false, true] = TreeReadResult.ok 0 [] := by
  decide

/-- Claim C5 (amended): for every code-length table — including those
whose implied node count exceeds the fixed tree capacity — construction
stops allocating once the allocation counter reaches the capacity
(tree_allocated never exceeds tree_len) and completes without any
failure report, and it never writes to any index outside the provided
tree array bounds: every cell at or beyond tree_len keeps its prior
contents, and the array length never changes. -/
theorem c5_capacity_amended (t : List Nat) (len : Nat) (cl : List Nat) (num : Nat)
    (hodd : Odd len) (h255 : len ≤ 255) (hlen : len ≤ t.length)
    (hinv : TreeInvAt t len) :
    (build_tree_full t len cl num).tree_allocated ≤ len ∧
    (build_tree t len cl num).length = t.length ∧
    (∀ i, len ≤ i → (build_tree t len cl num).getD i 0 = t.getD i 0) := by
  obtain ⟨-, g2, g3, g4⟩ := build_tree_spec t len cl num hodd h255 hlen hinv
  exact ⟨g4, g2, g3⟩

theorem c5_capacity_amended_witness :
    (build_tree_full (List.replicate 17 128) 17 [7, 7] 2).tree_allocated ≤ 17 ∧
    (build_tree (List.replicate 17 128) 17 [7, 7] 2).length =
      (List.replicate 17 (128 : Nat)).length ∧
    (build_tree (List.replicate 17 128) 17 [7, 7] 2).getD 20 0 =
      (List.replicate 17 (128 : Nat)).getD 20 0 := by
  obtain ⟨h1, h2, h3⟩ := c5_capacity_amended (List.replicate 17 128) 17 [7, 7] 2
    ⟨8, by norm_num⟩ (by norm_num) (by decide) (by decide)
  exact ⟨h1, h2, h3 20 (by norm_num)⟩

/-- Claim C10: for every code-length input, including malformed or
hostile ones, build_tree preserves the tree invariant: every non-leaf
child-pointer value in the first tree_len cells is strictly greater
than the index of its cell (with its sibling still inside the array),
and the initial all-leaf trees of both sizes satisfy the invariant; the
builder's writes all stay inside the first tree_len cells (cells beyond
keep their contents, the length never changes).  Consequently
read_from_tree on any such tree visits strictly increasing cells and
terminates: it never runs out of the fuel tree.length + 1, with enough
input it returns a symbol after at most tree_len bit reads, and its
traversal never reads outside the first tree_len cells (appending junk
cells changes nothing). -/
theorem c10_tree_bounds_and_termination :
    (∀ t : List Nat, ∀ len : Nat, ∀ cl : List Nat, ∀ num : Nat,
      Odd len → len ≤ 255 → len ≤ t.length → TreeInvAt t len →
      TreeInvAt (build_tree t len cl num) len ∧
      (build_tree t len cl num).length = t.length ∧
      (∀ i, len ≤ i → (build_tree t len cl num).getD i 0 = t.getD i 0)) ∧
    TreeInvAt (List.replicate 65 128) 65 ∧
    TreeInvAt (List.replicate 17 128) 17 ∧
    (∀ t : List Nat, ∀ len : Nat, ∀ bits : List Bool,
      TreeInvAt t len → 2 ≤ len → len ≤ t.length →
      read_from_tree t bits ≠ TreeReadResult.outOfFuel ∧
      (len ≤ bits.length → ∃ sym rest,
        read_from_tree t bits = TreeReadResult.ok sym rest ∧
        bits.length - rest.length ≤ len) ∧
      (∀ junk : List Nat, ∀ fuel : Nat,
        read_from_tree_go (t ++ junk) fuel 0 bits = read_from_tree_go t fuel 0 bits)) := by
  refine ⟨?_, by decide, by decide, ?_⟩
  · intro t len cl num h1 h2 h3 h4
    obtain ⟨g1, g2, g3, -⟩ := build_tree_spec t len cl num h1 h2 h3 h4
    exact ⟨g1, g2, g3⟩
  · intro t len bits hinv h2 hlen
    obtain ⟨hnf, hok⟩ := read_from_tree_go_spec t len hinv (t.length + 1) 0 bits
      (by decide) (by omega) (by omega)
    refine ⟨hnf, ?_, fun junk fuel =>
      read_from_tree_go_frame t junk len hinv hlen fuel 0 bits (Or.inr (by omega))⟩
    intro hbl
    obtain ⟨sym, rest, heq, hb⟩ := hok (by omega)
    exact ⟨sym, rest, heq, by omega⟩

theorem c10_tree_bounds_and_termination_witness :
    TreeInvAt (build_tree (List.replicate 65 128) 65 [1, 1] 2) 65 ∧
    read_from_tree (List.replicate 65 128) [] ≠ TreeReadResult.outOfFuel :=
  ⟨(c10_tree_bounds_and_termination.1 (List.replicate 65 128) 65 [1, 1] 2
      ⟨32, by norm_num⟩ (by norm_num) (by decide) (by decide)).1,
   (c10_tree_bounds_and_termination.2.2.2 (List.replicate 65 128) 65 []
      (by decide) (by norm_num) (by decide)).1⟩

/-- Claim C9: at session initialization every cell of the 8192-byte
history ring buffer holds the padding byte 0x20 (32); for every emitted
byte, the byte is stored at the current write cursor and the cursor
advances by exactly one modulo 8192; consequently, after any sequence
of emitted bytes shorter than the distance, a back-reference read at
write_position − distance (mod 8192) with distance at most 8192 lands
on a never-written cell and yields the padding byte. -/
theorem c9_ring_buffer_padding :
    (∀ pre : LHAPMADecoder, ∀ bits : List Bool,
      (lha_pma_decoder_init pre bits).2.ringbuf = List.replicate 8192 32) ∧
    (∀ d : LHAPMADecoder, ∀ buf : List Nat, ∀ b : Nat, b < 256 →
      (output_byte d buf b).1.ringbuf = d.ringbuf.set d.ringbuf_pos b ∧
      (output_byte d buf b).1.ringbuf_pos = (d.ringbuf_pos + 1) % 8192) ∧
    (∀ pre : LHAPMADecoder, ∀ bits : List Bool, ∀ bs : List Nat, ∀ dist : Nat,
      pre.ringbuf_pos < 8192 → bs.length < dist → dist ≤ 8192 →
      (emitBytes (lha_pma_decoder_init pre bits).2 bs).ringbuf.getD
        (((emitBytes (lha_pma_decoder_init pre bits).2 bs).ringbuf_pos +
          8192 - dist) % 8192) 0 = 32) := by
  refine ⟨fun pre bits => rfl, ?_, ?_⟩
  · intro d buf b hb
    obtain ⟨-, -, o3, o4, -⟩ := output_byte_proj d buf b
    rw [Nat.mod_eq_of_lt hb] at o3
    exact ⟨o3, o4⟩
  · intro pre bits bs dist hpos hdist1 hdist2
    have hpos1 : (lha_pma_decoder_init pre bits).2.ringbuf_pos < 8192 := hpos
    obtain ⟨g1, g2, g3⟩ := emitBytes_ring bs (lha_pma_decoder_init pre bits).2 hpos1
    rw [g1]
    have hne : ∀ k, k < bs.length →
        (((lha_pma_decoder_init pre bits).2.ringbuf_pos + bs.length) % 8192 +
          8192 - dist) % 8192 ≠
          ((lha_pma_decoder_init pre bits).2.ringbuf_pos + k) % 8192 := by
      intro k hk hcontra
      omega
    rw [g3 _ hne]
    show (List.replicate 8192 32).getD _ 0 = 32
    exact getD_replicate _ _ _ (Nat.mod_lt _ (by norm_num))

theorem c9_ring_buffer_padding_witness :
    (emitBytes (lha_pma_decoder_init emptyDecoder []).2 [65]).ringbuf.getD
      (((emitBytes (lha_pma_decoder_init emptyDecoder []).2 [65]).ringbuf_pos +
        8192 - 5) % 8192) 0 = 32 :=
  c9_ring_buffer_padding.2.2 emptyDecoder [] [65] 5 (by decide) (by decide) (by decide)

/-- Claim C3: from the unbuilt state, the initial rebuild reads the
code tree and the 5-symbol offset table and moves to build1 with
countdown 1024; the build1 rebuild reads only a 6-symbol offset table
(countdown 1024, next build2); build2 reads a 7-symbol table (2048,
next build3); build3 reads a flag bit, re-reads the code tree when it
is set, always reads an 8-symbol table, and moves to the steady
continuing state with countdown 4096; continuing self-loops with
countdown 4096.  With the countdown decremented once per emitted byte
and rebuild_tree fired exactly at zero (output_byte's discipline), the
trajectory over any emitted byte sequence depends only on its length n:
state and countdown follow the closed form below, and the countdown
reads 1 exactly when the next byte is number 1024, 2048, 4096, 8192, or
any later multiple-of-4096 milestone — so those are the rebuild
points, regardless of the literal/copy mix. -/
theorem c3_rebuild_schedule :
    ∀ d0 : LHAPMADecoder, d0.tree_state = PMARebuildState.unbuilt →
    (rebuild_tree d0 = { (read_offset_tree (read_code_tree d0).2 5).2 with
        tree_state := PMARebuildState.build1, tree_rebuild_remaining := 1024 }) ∧
    (∀ d : LHAPMADecoder, d.tree_state = PMARebuildState.build1 →
      rebuild_tree d = { (read_offset_tree d 6).2 with
        tree_state := PMARebuildState.build2, tree_rebuild_remaining := 1024 }) ∧
    (∀ d : LHAPMADecoder, d.tree_state = PMARebuildState.build2 →
      rebuild_tree d = { (read_offset_tree d 7).2 with
        tree_state := PMARebuildState.build3, tree_rebuild_remaining := 2048 }) ∧
    (∀ d : LHAPMADecoder, ∀ rest : List Bool,
      d.tree_state = PMARebuildState.build3 → read_bits d.bits 1 = some (1, rest) →
      rebuild_tree d =
        { (read_offset_tree (read_code_tree { d with bits := rest }).2 8).2 with
          tree_state := PMARebuildState.continuing, tree_rebuild_remaining := 4096 }) ∧
    (∀ d : LHAPMADecoder, ∀ rest : List Bool,
      d.tree_state = PMARebuildState.build3 → read_bits d.bits 1 = some (0, rest) →
      rebuild_tree d = { (read_offset_tree { d with bits := rest } 8).2 with
        tree_state := PMARebuildState.continuing, tree_rebuild_remaining := 4096 }) ∧
    (∀ d : LHAPMADecoder, d.tree_state = PMARebuildState.continuing →
      (rebuild_tree d).tree_state = PMARebuildState.continuing ∧
      (rebuild_tree d).tree_rebuild_remaining = 4096) ∧
    (∀ bs : List Nat,
      (bs.length < 1024 →
        (emitBytes (rebuild_tree d0) bs).tree_state = PMARebuildState.build1 ∧
        (emitBytes (rebuild_tree d0) bs).tree_rebuild_remaining = 1024 - bs.length) ∧
      (1024 ≤ bs.length → bs.length < 2048 →
        (emitBytes (rebuild_tree d0) bs).tree_state = PMARebuildState.build2 ∧
        (emitBytes (rebuild_tree d0) bs).tree_rebuild_remaining = 2048 - bs.length) ∧
      (2048 ≤ bs.length → bs.length < 4096 →
        (emitBytes (rebuild_tree d0) bs).tree_state = PMARebuildState.build3 ∧
        (emitBytes (rebuild_tree d0) bs).tree_rebuild_remaining = 4096 - bs.length) ∧
      (4096 ≤ bs.length → bs.length < 8192 →
        (emitBytes (rebuild_tree d0) bs).tree_state = PMARebuildState.continuing ∧
        (emitBytes (rebuild_tree d0) bs).tree_rebuild_remaining = 8192 - bs.length) ∧
      (8192 ≤ bs.length →
        (emitBytes (rebuild_tree d0) bs).tree_state = PMARebuildState.continuing ∧
        (emitBytes (rebuild_tree d0) bs).tree_rebuild_remaining =
          4096 - (bs.length - 8192) % 4096)) ∧
    (∀ bs : List Nat,
      ((emitBytes (rebuild_tree d0) bs).tree_rebuild_remaining = 1 ↔
        (bs.length + 1 = 1024 ∨ bs.length + 1 = 2048 ∨ bs.length + 1 = 4096 ∨
          (8192 ≤ bs.length + 1 ∧ (bs.length + 1 - 8192) % 4096 = 0)))) := by
  intro d0 hd0
  have hstart : ((rebuild_tree d0).tree_state, (rebuild_tree d0).tree_rebuild_remaining)
      = (PMARebuildState.build1, 1024) := by
    rw [(rebuild_tree_sched d0).1, (rebuild_tree_sched d0).2, hd0]
    rfl
  have htraj : ∀ bs : List Nat,
      ((emitBytes (rebuild_tree d0) bs).tree_state,
        (emitBytes (rebuild_tree d0) bs).tree_rebuild_remaining) =
        tickN bs.length (PMARebuildState.build1, 1024) := by
    intro bs
    rw [emitBytes_tick bs (rebuild_tree d0), hstart]
  refine ⟨?_, ?_, ?_, ?_, ?_, ?_, ?_, ?_⟩
  · simp only [rebuild_tree, hd0]
  · intro d h
    simp only [rebuild_tree, h]
  · intro d h
    simp only [rebuild_tree, h]
  · intro d rest h hbit
    simp only [rebuild_tree, h, hbit]
    norm_num
  · intro d rest h hbit
    simp only [rebuild_tree, h, hbit]
    norm_num
  · intro d h
    refine ⟨?_, ?_⟩
    · rw [(rebuild_tree_sched d).1, h]; rfl
    · rw [(rebuild_tree_sched d).2, h]; rfl
  · intro bs
    have hp := htraj bs
    obtain ⟨t1, t2, t3, t4, t5⟩ := tickN_traj bs.length
    refine ⟨?_, ?_, ?_, ?_, ?_⟩
    · intro h
      rw [t1 h] at hp
      rw [Prod.mk.injEq] at hp
      exact hp
    · intro hge hlt
      rw [t2 hge hlt] at hp
      rw [Prod.mk.injEq] at hp
      exact hp
    · intro hge hlt
      rw [t3 hge hlt] at hp
      rw [Prod.mk.injEq] at hp
      exact hp
    · intro hge hlt
      rw [t4 hge hlt] at hp
      rw [Prod.mk.injEq] at hp
      exact hp
    · intro hge
      rw [t5 hge] at hp
      rw [Prod.mk.injEq] at hp
      exact hp
  · intro bs
    have hp := htraj bs
    obtain ⟨t1, t2, t3, t4, t5⟩ := tickN_traj bs.length
    by_cases h1 : bs.length < 1024
    · rw [t1 h1] at hp
      rw [Prod.mk.injEq] at hp
      rw [hp.2]
      omega
    · by_cases h2 : bs.length < 2048
      · rw [t2 (by omega) h2] at hp
        rw [Prod.mk.injEq] at hp
        rw [hp.2]
        omega
      · by_cases h3 : bs.length < 4096
        · rw [t3 (by omega) h3] at hp
          rw [Prod.mk.injEq] at hp
          rw [hp.2]
          omega
        · by_cases h4 : bs.length < 8192
          · rw [t4 (by omega) h4] at hp
            rw [Prod.mk.injEq] at hp
            rw [hp.2]
            omega
          · rw [t5 (by omega)] at hp
            rw [Prod.mk.injEq] at hp
            rw [hp.2]
            omega

theorem c3_rebuild_schedule_witness :
    (emitBytes (rebuild_tree emptyDecoder) [0, 0, 0]).tree_state =
      PMARebuildState.build1 ∧
    (emitBytes (rebuild_tree emptyDecoder) [0, 0, 0]).tree_rebuild_remaining =
      1024 - [0, 0, 0].length ∧
    rebuild_tree emptyDecoder =
      { (read_offset_tree (read_code_tree emptyDecoder).2 5).2 with
        tree_state := PMARebuildState.build1, tree_rebuild_remaining := 1024 } := by
  obtain ⟨e1, -, -, -, -, -, traj, -⟩ := c3_rebuild_schedule emptyDecoder rfl
  obtain ⟨p1, -, -, -, -⟩ := traj [0, 0, 0]
  obtain ⟨q1, q2⟩ := p1 (by norm_num)
  exact ⟨q1, q2, e1⟩
